import Mathlib

/-!
# Verification of the `slowjson` position-tracking JSON parser

Shallow embedding of `src/slowjson/parser.go`.  The Go parser walks a rune
slice with a cursor that tracks 1-based line/column positions, builds a tree
of `Node`s annotated with source spans, and reports errors as values together
with the best-effort partial node.  Strings are modelled as `List Char`
(Go `[]rune`); error messages are Lean `String`s built the way `fmt.Errorf`
builds them.  The mutually recursive grammar functions take an explicit fuel
argument; `Parse` supplies `3 * length + 3` fuel, and a theorem below shows
this never runs out, which is the termination argument of the Go code.
-/

/-! ## Definitions -/

/-- `NodeType` from parser.go (NodeUnknown, NodeObject, ...). -/
inductive NodeType where
  | unknown
  | object
  | array
  | string
  | number
  | boolean
  | null
  deriving DecidableEq, Repr

/-- `Node` from parser.go.  Fields mirror the Go struct in order; fields the
Go code leaves unset keep Go's zero values (`0`, `""`, `nil` children). -/
structure Node where
  type : NodeType
  value : List Char
  children : List Node
  startLine : Nat
  startCol : Nat
  endLine : Nat
  endCol : Nat
  source : List Char

/-- The mutable parse-time state of `Parser` (pos/line/col).  The rune slice,
its length and the source text are immutable after `NewParser`, so they are
passed separately as a fixed `src : List Char`. -/
structure Cursor where
  pos : Nat
  line : Nat
  col : Nat
  deriving DecidableEq, Repr

/-- `NewParser` starts at pos 0, line 1, col 1. -/
def initCursor : Cursor := ⟨0, 1, 1⟩

/-- `isEOF`: `p.pos >= p.length`. -/
def isEOF (src : List Char) (p : Cursor) : Bool := src.length ≤ p.pos

/-- `peekChar`: the current rune, or the zero rune past end of input. -/
def peekChar (src : List Char) (p : Cursor) : Char :=
  if h : p.pos < src.length then src.get ⟨p.pos, h⟩ else Char.ofNat 0

/-- `consumeChar`: advance one rune, line/col bookkeeping; no-op past end. -/
def consumeChar (src : List Char) (p : Cursor) : Cursor :=
  if h : p.pos < src.length then
    if src.get ⟨p.pos, h⟩ = '\n' then ⟨p.pos + 1, p.line + 1, 1⟩
    else ⟨p.pos + 1, p.line, p.col + 1⟩
  else p

/-- `remaining`: the unconsumed suffix (empty past end of input). -/
def remaining (src : List Char) (p : Cursor) : List Char := src.drop p.pos

/-- The loop of `skipWhitespace`, structurally recursive on a fuel bound on
the remaining input.  Each continuing iteration consumes one rune, so fuel
`src.length - p.pos` makes this exactly the Go loop. -/
def skipWhitespaceFuel (src : List Char) : Nat → Cursor → Cursor
  | 0, p => p
  | fuel + 1, p =>
    if p.pos < src.length then
      let ch := peekChar src p
      if ch = ' ' ∨ ch = '\t' ∨ ch = '\n' ∨ ch = '\r' then
        skipWhitespaceFuel src fuel (consumeChar src p)
      else p
    else p

/-- `skipWhitespace`: consume space/tab/newline/carriage-return.  With fuel
`src.length - p.pos` the fuel can run out only at end of input, where the
Go loop exits too. -/
def skipWhitespace (src : List Char) (p : Cursor) : Cursor :=
  skipWhitespaceFuel src (src.length - p.pos) p

/-- Result of one of the scalar grammar functions (string/number/boolean/null):
the (possibly partial) node, the parser state after the call, and the error,
mirroring Go's `(*Node, error)` where the node is never nil for these. -/
structure SRes where
  node : Node
  cur : Cursor
  errMsg : Option String

/-- A single-quote character, for building Go's error message strings. -/
def squote : String := ⟨[Char.ofNat 39]⟩

def msgAtLineCol (head : String) (p : Cursor) : String :=
  head ++ " at line " ++ Nat.repr p.line ++ " col " ++ Nat.repr p.col

def headKey : String := "expected string key"

def headColon : String := "expected " ++ squote ++ ":" ++ squote ++ " after object key"

def headObjSep : String :=
  "expected " ++ squote ++ "," ++ squote ++ " or " ++ squote ++ "\x7d" ++ squote ++ " in object"

def headArrSep : String :=
  "expected " ++ squote ++ "," ++ squote ++ " or " ++ squote ++ "]" ++ squote ++ " in array"

def headBool : String := "invalid boolean"

def headNull : String := "invalid null"

def msgKey (p : Cursor) : String := msgAtLineCol headKey p

def msgColon (p : Cursor) : String := msgAtLineCol headColon p

def msgObjSep (p : Cursor) : String := msgAtLineCol headObjSep p

def msgArrSep (p : Cursor) : String := msgAtLineCol headArrSep p

def msgBool (p : Cursor) : String := msgAtLineCol headBool p

def msgNull (p : Cursor) : String := msgAtLineCol headNull p

def msgEOFString : String := "unexpected end of input in string"

def msgEOFStringEscape : String := "unexpected end of input in string escape"

def msgEOF : String := "unexpected end of input"

/-- Outcome of the scan loop inside `parseString`: closed by an unescaped
quote, stopped by end of input, or stopped by end of input right after a
backslash (in which case Go returns the node untouched). -/
inductive StrScan where
  | closed (acc : List Char) (p : Cursor)
  | eofIn (acc : List Char) (p : Cursor)
  | eofEsc (p : Cursor)
  deriving DecidableEq, Repr

/-- The `for` loop of `parseString` (parser.go lines 258-284), structurally
recursive on a fuel bound on the remaining input.  Each continuing iteration
consumes at least one rune, so fuel `src.length - p.pos` makes this exactly
the Go loop: fuel can run out only at end of input, which is the loop\'s own
end-of-input exit. -/
def parseStringLoopFuel (src : List Char) : Nat → Cursor → List Char → StrScan
  | 0, p, acc => .eofIn acc p
  | fuel + 1, p, acc =>
    if src.length ≤ p.pos then .eofIn acc p
    else
      let ch := peekChar src p
      if ch = '"' then .closed acc (consumeChar src p)
      else if ch = '\\' then
        if src.length ≤ (consumeChar src p).pos then .eofEsc (consumeChar src p)
        else
          parseStringLoopFuel src fuel (consumeChar src (consumeChar src p))
            (acc ++ [peekChar src (consumeChar src p)])
      else parseStringLoopFuel src fuel (consumeChar src p) (acc ++ [ch])

/-- The `for` loop of `parseString` (parser.go lines 258-284). -/
def parseStringLoop (src : List Char) (p : Cursor) (acc : List Char) : StrScan :=
  parseStringLoopFuel src (src.length - p.pos) p acc

/-- `parseString` (parser.go lines 247-290). -/
def parseString (src : List Char) (p : Cursor) : SRes :=
  let n0 : Node := ⟨.string, [], [], p.line, p.col, 0, 0, src⟩
  match parseStringLoop src (consumeChar src p) [] with
  | .closed acc p2 =>
      ⟨{ n0 with value := acc, endLine := p2.line, endCol := p2.col }, p2, none⟩
  | .eofIn acc p2 =>
      ⟨{ n0 with value := acc, endLine := p2.line, endCol := p2.col }, p2, some msgEOFString⟩
  | .eofEsc p2 => ⟨n0, p2, some msgEOFStringEscape⟩

/-- The inclusive code-point ranges of the Unicode decimal-digit category
Nd (Unicode Character Database version 14.0.0): the table behind Go\'s
`unicode.IsDigit` / `unicode.Nd`. -/
def ndRanges : List (Nat × Nat) :=
  [(0x30, 0x39), (0x660, 0x669), (0x6F0, 0x6F9), (0x7C0, 0x7C9), (0x966, 0x96F),
   (0x9E6, 0x9EF), (0xA66, 0xA6F), (0xAE6, 0xAEF), (0xB66, 0xB6F), (0xBE6, 0xBEF),
   (0xC66, 0xC6F), (0xCE6, 0xCEF), (0xD66, 0xD6F), (0xDE6, 0xDEF), (0xE50, 0xE59),
   (0xED0, 0xED9), (0xF20, 0xF29), (0x1040, 0x1049), (0x1090, 0x1099), (0x17E0, 0x17E9),
   (0x1810, 0x1819), (0x1946, 0x194F), (0x19D0, 0x19D9), (0x1A80, 0x1A89), (0x1A90, 0x1A99),
   (0x1B50, 0x1B59), (0x1BB0, 0x1BB9), (0x1C40, 0x1C49), (0x1C50, 0x1C59), (0xA620, 0xA629),
   (0xA8D0, 0xA8D9), (0xA900, 0xA909), (0xA9D0, 0xA9D9), (0xA9F0, 0xA9F9), (0xAA50, 0xAA59),
   (0xABF0, 0xABF9), (0xFF10, 0xFF19), (0x104A0, 0x104A9), (0x10D30, 0x10D39),
   (0x11066, 0x1106F), (0x110F0, 0x110F9), (0x11136, 0x1113F), (0x111D0, 0x111D9),
   (0x112F0, 0x112F9), (0x11450, 0x11459), (0x114D0, 0x114D9), (0x11650, 0x11659),
   (0x116C0, 0x116C9), (0x11730, 0x11739), (0x118E0, 0x118E9), (0x11950, 0x11959),
   (0x11C50, 0x11C59), (0x11D50, 0x11D59), (0x11DA0, 0x11DA9), (0x16A60, 0x16A69),
   (0x16AC0, 0x16AC9), (0x16B50, 0x16B59), (0x1D7CE, 0x1D7FF), (0x1E140, 0x1E149),
   (0x1E2F0, 0x1E2F9), (0x1E950, 0x1E959), (0x1FBF0, 0x1FBF9)]

/-- Go\'s `unicode.IsDigit`: the rune lies in the Unicode decimal-digit
category Nd. -/
def unicodeIsDigit (ch : Char) : Bool :=
  ndRanges.any (fun r => Nat.ble r.1 ch.toNat && Nat.ble ch.toNat r.2)

/-- The character class accepted by `parseNumber` (parser.go line 307):
`ch == '-' || ch == '+' || ch == '.' || unicode.IsDigit(ch)`. -/
def numberChar (ch : Char) : Bool :=
  ch == '-' || ch == '+' || ch == '.' || unicodeIsDigit ch

/-- The accumulation loop of `parseNumber` (parser.go lines 305-313),
structurally recursive on a fuel bound on the remaining input. -/
def parseNumberLoopFuel (src : List Char) : Nat → Cursor → List Char → List Char × Cursor
  | 0, p, acc => (acc, p)
  | fuel + 1, p, acc =>
    if p.pos < src.length then
      let ch := peekChar src p
      if numberChar ch then parseNumberLoopFuel src fuel (consumeChar src p) (acc ++ [ch])
      else (acc, p)
    else (acc, p)

/-- The accumulation loop of `parseNumber` (parser.go lines 305-313). -/
def parseNumberLoop (src : List Char) (p : Cursor) (acc : List Char) : List Char × Cursor :=
  parseNumberLoopFuel src (src.length - p.pos) p acc

/-- `parseNumber` (parser.go lines 292-321).  Never fails. -/
def parseNumber (src : List Char) (p : Cursor) : SRes :=
  let n0 : Node := ⟨.number, [], [], p.line, p.col, 0, 0, src⟩
  let r := parseNumberLoop src p []
  ⟨{ n0 with value := r.1, endLine := r.2.line, endCol := r.2.col }, r.2, none⟩

/-- `strings.HasPrefix s pre`. -/
def hasPre (s pre : List Char) : Bool :=
  match pre, s with
  | [], _ => true
  | _ :: _, [] => false
  | a :: as, b :: bs => a == b && hasPre bs as

/-- Consume `k` runes one by one. -/
def consumeN (src : List Char) (k : Nat) (p : Cursor) : Cursor :=
  match k with
  | 0 => p
  | k + 1 => consumeN src k (consumeChar src p)

/-- `parseBoolean` (parser.go lines 323-350). -/
def parseBoolean (src : List Char) (p : Cursor) : SRes :=
  let n0 : Node := ⟨.boolean, [], [], p.line, p.col, 0, 0, src⟩
  if hasPre (remaining src p) "true".data then
    let p4 := consumeN src 4 p
    ⟨{ n0 with value := "true".data, endLine := p4.line, endCol := p4.col }, p4, none⟩
  else if hasPre (remaining src p) "false".data then
    let p5 := consumeN src 5 p
    ⟨{ n0 with value := "false".data, endLine := p5.line, endCol := p5.col }, p5, none⟩
  else ⟨n0, p, some (msgBool p)⟩

/-- `parseNull` (parser.go lines 352-373). -/
def parseNull (src : List Char) (p : Cursor) : SRes :=
  let n0 : Node := ⟨.null, [], [], p.line, p.col, 0, 0, src⟩
  if hasPre (remaining src p) "null".data then
    let p4 := consumeN src 4 p
    ⟨{ n0 with value := "null".data, endLine := p4.line, endCol := p4.col }, p4, none⟩
  else ⟨n0, p, some (msgNull p)⟩

/-- Result of `parseValue`/`parseObject`/`parseArray`: Go's `(*Node, error)`
with a possibly-nil node on error, plus the parser state.  `out` is the
fuel-exhaustion marker of the embedding; a theorem below shows `Parse`'s fuel
never runs out. -/
inductive PRes where
  | ok (n : Node) (p : Cursor)
  | err (n : Option Node) (msg : String) (p : Cursor)
  | out

/-- Wrap a scalar result the way Go returns it up from `parseValue`. -/
def toPRes (r : SRes) : PRes :=
  match r.errMsg with
  | none => .ok r.node r.cur
  | some m => .err (some r.node) m r.cur

mutual

/-- `parseValue` (parser.go lines 118-140). -/
def parseValue (src : List Char) : Nat → Cursor → PRes
  | 0, _ => .out
  | fuel + 1, p =>
    let p1 := skipWhitespace src p
    if src.length ≤ p1.pos then .err none msgEOF p1
    else
      let c := peekChar src p1
      if c = '{' then parseObject src fuel p1
      else if c = '[' then parseArray src fuel p1
      else if c = '"' then toPRes (parseString src p1)
      else if c = 't' ∨ c = 'f' then toPRes (parseBoolean src p1)
      else if c = 'n' then toPRes (parseNull src p1)
      else toPRes (parseNumber src p1)

/-- `parseObject` up to its loop (parser.go lines 142-161). -/
def parseObject (src : List Char) : Nat → Cursor → PRes
  | 0, _ => .out
  | fuel + 1, p =>
    let n0 : Node := ⟨.object, [], [], p.line, p.col, 0, 0, src⟩
    let p1 := skipWhitespace src (consumeChar src p)
    if peekChar src p1 = '\x7d' then
      let p2 := consumeChar src p1
      .ok { n0 with endLine := p2.line, endCol := p2.col } p2
    else parseObjectLoop src fuel p1 n0

/-- The `for` loop of `parseObject` (parser.go lines 163-201). -/
def parseObjectLoop (src : List Char) : Nat → Cursor → Node → PRes
  | 0, _, _ => .out
  | fuel + 1, p, n =>
    let p1 := skipWhitespace src p
    if peekChar src p1 ≠ '"' then .err (some n) (msgKey p1) p1
    else
      let ks := parseString src p1
      match ks.errMsg with
      | some m => .err (some n) m ks.cur
      | none =>
        let p3 := skipWhitespace src ks.cur
        if peekChar src p3 ≠ ':' then .err (some n) (msgColon p3) p3
        else
          let p4 := consumeChar src p3
          match parseValue src fuel p4 with
          | .out => .out
          | .err _ m p5 => .err (some n) m p5
          | .ok v p5 =>
            let key := { ks.node with children := [v] }
            let n2 := { n with children := n.children ++ [key] }
            let p6 := skipWhitespace src p5
            if peekChar src p6 = '\x7d' then
              let p7 := consumeChar src p6
              .ok { n2 with endLine := p7.line, endCol := p7.col } p7
            else if peekChar src p6 = ',' then
              parseObjectLoop src fuel (consumeChar src p6) n2
            else .err (some n2) (msgObjSep p6) p6

/-- `parseArray` up to its loop (parser.go lines 204-223). -/
def parseArray (src : List Char) : Nat → Cursor → PRes
  | 0, _ => .out
  | fuel + 1, p =>
    let n0 : Node := ⟨.array, [], [], p.line, p.col, 0, 0, src⟩
    let p1 := skipWhitespace src (consumeChar src p)
    if peekChar src p1 = ']' then
      let p2 := consumeChar src p1
      .ok { n0 with endLine := p2.line, endCol := p2.col } p2
    else parseArrayLoop src fuel p1 n0

/-- The `for` loop of `parseArray` (parser.go lines 225-244). -/
def parseArrayLoop (src : List Char) : Nat → Cursor → Node → PRes
  | 0, _, _ => .out
  | fuel + 1, p, n =>
    match parseValue src fuel p with
    | .out => .out
    | .err _ m p5 => .err (some n) m p5
    | .ok v p5 =>
      let n2 := { n with children := n.children ++ [v] }
      let p6 := skipWhitespace src p5
      if peekChar src p6 = ']' then
        let p7 := consumeChar src p6
        .ok { n2 with endLine := p7.line, endCol := p7.col } p7
      else if peekChar src p6 = ',' then
        parseArrayLoop src fuel (skipWhitespace src (consumeChar src p6)) n2
      else .err (some n2) (msgArrSep p6) p6

end

/-- Fuel budget supplied by `Parse`; shown sufficient below. -/
def fuelFor (src : List Char) : Nat := 3 * src.length + 3

/-- `Parse` (parser.go lines 105-116): run `parseValue` from the initial
cursor; on success trailing input is skipped and ignored, so the observable
result is the node and the error. -/
def Parse (src : List Char) : Option Node × Option String :=
  match parseValue src (fuelFor src) initCursor with
  | .ok n _ => (some n, none)
  | .err n msg _ => (n, some msg)
  | .out => (none, none)

def lexLe (a b : Nat × Nat) : Prop := a.1 < b.1 ∨ (a.1 = b.1 ∧ a.2 ≤ b.2)

def lexLt (a b : Nat × Nat) : Prop := a.1 < b.1 ∨ (a.1 = b.1 ∧ a.2 < b.2)

instance (a b : Nat × Nat) : Decidable (lexLe a b) := by unfold lexLe; infer_instance

instance (a b : Nat × Nat) : Decidable (lexLt a b) := by unfold lexLt; infer_instance

/-- The (line, col) component of a cursor. -/
def Cursor.lc (p : Cursor) : Nat × Nat := (p.line, p.col)

/-- Outcome of scanning string content, phrased on the remaining input alone:
which of the three `parseStringLoop` outcomes occurs, and the content
accumulated so far at that point. -/
inductive ScanOut where
  | closed (content : List Char)
  | eofPlain (content : List Char)
  | eofEsc (content : List Char)
  deriving DecidableEq, Repr

/-- The content scan performed by `parseStringLoop`: accumulate characters
until an unescaped quote; a backslash is consumed and dropped and the
following character is taken verbatim. -/
def scanString (cs : List Char) (acc : List Char) : ScanOut :=
  match cs with
  | [] => .eofPlain acc
  | c :: rest =>
    if c = '"' then .closed acc
    else if c = '\\' then
      match rest with
      | [] => .eofEsc acc
      | e :: rest2 => scanString rest2 (acc ++ [e])
    else scanString rest (acc ++ [c])

/-- The facts shared by all successful scalar parses: the node records its
kind, no children, the entry position as start, the exit position as end,
and the cursor moves monotonically. -/
def scalarOk (t : NodeType) (p : Cursor) (r : SRes) : Prop :=
  r.node.type = t ∧ r.node.children = [] ∧
  r.node.startLine = p.line ∧ r.node.startCol = p.col ∧
  r.node.endLine = r.cur.line ∧ r.node.endCol = r.cur.col ∧
  p.pos ≤ r.cur.pos ∧ lexLe p.lc r.cur.lc

/-- A node's (startLine, startCol). -/
def Node.startPair (n : Node) : Nat × Nat := (n.startLine, n.startCol)

/-- A node's (endLine, endCol). -/
def Node.endPair (n : Node) : Nat × Nat := (n.endLine, n.endCol)

/-- The span invariant of the spec: start does not come after end, in
lexicographic (line, col) order. -/
def spanOrdered (n : Node) : Prop := lexLe n.startPair n.endPair

/-- Shape of an object's key node: a String node whose single child is the
attached value, and whose recorded end comes strictly before the value's
recorded end. -/
def keyShape (k : Node) : Prop :=
  k.type = .string ∧ ∃ v, k.children = [v] ∧ lexLt k.endPair v.endPair

/-- Every child of an Object node is a well-shaped key. -/
def objKeysOk (n : Node) : Prop := n.type = .object → ∀ k ∈ n.children, keyShape k

/-- `P` holds at every node of the tree. -/
inductive EveryNode (P : Node → Prop) : Node → Prop where
  | mk (n : Node) : P n → (∀ c ∈ n.children, EveryNode P c) → EveryNode P n

/-- The invariants that hold at every node of a successfully parsed tree. -/
def GoodT : Node → Prop := EveryNode (fun n => spanOrdered n ∧ objKeysOk n)

/-- Conclusions about a successful `parseValue`/`parseObject`/`parseArray`
call: cursor moves forward, the node starts at or after the entry position,
ends exactly at the exit position, and the whole subtree is well-formed. -/
def topOk (p : Cursor) (n : Node) (p' : Cursor) : Prop :=
  p.pos ≤ p'.pos ∧ lexLe p.lc p'.lc ∧ lexLe p.lc n.startPair ∧
  n.endPair = p'.lc ∧ GoodT n

/-- Conclusions about a successful object/array loop run on accumulator
`n0`. -/
def loopOk (n0 : Node) (p : Cursor) (n : Node) (p' : Cursor) : Prop :=
  p.pos ≤ p'.pos ∧ lexLe p.lc p'.lc ∧ n.startPair = n0.startPair ∧
  n.type = n0.type ∧ n.endPair = p'.lc ∧ GoodT n

/-- `strings.Split(s, "\n")`: always at least one (possibly empty) line. -/
def splitLines : List Char → List (List Char)
  | [] => [[]]
  | c :: rest =>
    if c = '\n' then [] :: splitLines rest
    else
      match splitLines rest with
      | [] => [[c]]
      | l :: ls => (c :: l) :: ls

/-- `fmt.Sprintf("%d: %s", i+1, text)`. -/
def fmtLine (i : Nat) (text : List Char) : List Char :=
  (Nat.repr (i + 1)).data ++ ':' :: ' ' :: text

/-- The UTF-8 byte length of a line given as its rune list: Go\'s `len` on
the `string` `sourceLines[i]` counts bytes, and a Go string holds the UTF-8
encoding of its runes, so its byte length is the summed UTF-8 size of the
runes. -/
def utf8Len (l : List Char) : Nat := l.foldr (fun c acc => c.utf8Size + acc) 0

/-- The caret lines emitted after the source line with 0-based index `i`:
`strings.Repeat(" ", col) + "^ start"` when on the node's start line and
the column fits in the line's byte length (`caretPos <= len(sourceLines[i])`,
parser.go line 64), then symmetrically for the end line (line 70). -/
def caretRows (n : Node) (lines : List (List Char)) (i : Nat) : List (List Char) :=
  (if i + 1 = n.startLine ∧ 0 < n.startCol ∧ n.startCol ≤ utf8Len (lines.getD i []) then
    [List.replicate n.startCol ' ' ++ '^' :: " start".data]
  else []) ++
  (if i + 1 = n.endLine ∧ 0 < n.endCol ∧ n.endCol ≤ utf8Len (lines.getD i []) then
    [List.replicate n.endCol ' ' ++ '^' :: " end".data]
  else [])

/-- The `for i := start; i <= end; i++` loop of `DebugContext`, collecting
the emitted lines in order. -/
def debugRows (n : Node) (lines : List (List Char)) (i stop : Int) : List (List Char) :=
  if stop < i then []
  else (fmtLine i.toNat (lines.getD i.toNat []) :: caretRows n lines i.toNat) ++
    debugRows n lines (i + 1) stop
  termination_by (stop + 1 - i).toNat
  decreasing_by omega

/-- The clamped loop start used by the Go code: `max 0 (startLine-1-before)`
written as the code writes it. -/
def debugStart (n : Node) (linesBefore : Int) : Int :=
  if (n.startLine : Int) - 1 - linesBefore < 0 then 0
  else (n.startLine : Int) - 1 - linesBefore

/-- The clamped loop end used by the Go code:
`min (len-1) (endLine-1+after)` written as the code writes it. -/
def debugStop (n : Node) (lineCount : Nat) (linesAfter : Int) : Int :=
  if (lineCount : Int) ≤ (n.endLine : Int) - 1 + linesAfter then (lineCount : Int) - 1
  else (n.endLine : Int) - 1 + linesAfter

/-- The ordered list of lines `DebugContext` emits (each without its
trailing newline). -/
def debugContextRows (n : Node) (linesBefore linesAfter : Int) : List (List Char) :=
  let lines := splitLines n.source
  debugRows n lines (debugStart n linesBefore) (debugStop n lines.length linesAfter)

/-- `DebugContext` itself: the emitted lines joined, `"\n"` after each. -/
def DebugContext (n : Node) (linesBefore linesAfter : Int) : List Char :=
  (debugContextRows n linesBefore linesAfter).foldr (fun r acc => r ++ '\n' :: acc) []

/-- The display window as the spec phrases it:
`[max 0 (startLine-1-linesBefore), min (lastLineIndex) (endLine-1+linesAfter)]`,
as a list of 0-based `Int` indices. -/
def specWindow (n : Node) (lineCount : Nat) (linesBefore linesAfter : Int) : List Int :=
  intRange (max 0 ((n.startLine : Int) - 1 - linesBefore))
    (min ((lineCount : Int) - 1) ((n.endLine : Int) - 1 + linesAfter))
where
  intRange (a b : Int) : List Int :=
    if a ≤ b then (List.range (b - a + 1).toNat).map (fun (k : Nat) => a + (k : Int)) else []

mutual

/-- Structural tree equality: same kind, literal, span, and recursively the
same children (in particular the same children count). -/
def structEq : Node → Node → Bool
  | ⟨t, v, c, sl, sc, el, ec, _⟩, ⟨t2, v2, c2, sl2, sc2, el2, ec2, _⟩ =>
    t == t2 && v == v2 && sl == sl2 && sc == sc2 && el == el2 && ec == ec2 &&
      structEqList c c2

def structEqList : List Node → List Node → Bool
  | [], [] => true
  | x :: xs, y :: ys => structEq x y && structEqList xs ys
  | [], _ :: _ => false
  | _ :: _, [] => false

end

/-- The spec's span invariant as stated: `startLine ≤ endLine`; when equal,
`startCol ≤ endCol`. -/
def claimedSpanInv (n : Node) : Prop :=
  n.startLine ≤ n.endLine ∧ (n.startLine = n.endLine → n.startCol ≤ n.endCol)

instance (n : Node) : Decidable (claimedSpanInv n) := by
  unfold claimedSpanInv
  infer_instance

/-- Span `a` encloses span `b`: `a` starts at or before `b` starts and ends
at or after `b` ends (lexicographic line/col order). -/
def spanEncloses (a b : Node) : Prop :=
  lexLe a.startPair b.startPair ∧ lexLe b.endPair a.endPair

/-- Substring test on rune lists. -/
def hasSub (hay sub : List Char) : Bool :=
  hasPre hay sub ||
    match hay with
    | [] => false
    | _ :: t => hasSub t sub

/-- Does parsing `src` produce an error whose message contains `sub`? -/
def errContains (src : List Char) (sub : String) : Bool :=
  match (Parse src).2 with
  | some m => hasSub m.data sub.data
  | none => false

def c1src : List Char := "\x7b".data

def c2src : List Char := "\x7b\"a\": true\x7d".data

def c2val : Node := ⟨.boolean, "true".data, [], 1, 7, 1, 11, c2src⟩

def c2key : Node := ⟨.string, ['a'], [c2val], 1, 2, 1, 5, c2src⟩

def c2node : Node := ⟨.object, [], [c2key], 1, 1, 1, 12, c2src⟩

def c3cexSrc : List Char := "\"ab\\".data

def c3wSrc : List Char := "\"ab".data

def c4src : List Char := "\"\\n\"".data

def c7node : Node := ⟨.string, ['c', 'd'], [], 2, 1, 2, 3, "ab\ncd\nef".data⟩

def c8node : Node := ⟨.boolean, "true".data, [], 1, 1, 1, 5, "true".data⟩

/-! ## Theorems -/

theorem consumeChar_pos_eq {src : List Char} {p : Cursor} (h : p.pos < src.length) :
    (consumeChar src p).pos = p.pos + 1 := by
  unfold consumeChar
  split
  · split <;> rfl
  · omega

theorem consumeChar_pos_le (src : List Char) (p : Cursor) :
    p.pos ≤ (consumeChar src p).pos := by
  unfold consumeChar
  split
  · split <;> simp
  · exact Nat.le_refl _

theorem consumeChar_pos_le_length {src : List Char} {p : Cursor} (h : p.pos ≤ src.length) :
    (consumeChar src p).pos ≤ src.length := by
  unfold consumeChar
  split
  · split <;> simp <;> omega
  · exact h

theorem lexLe_refl (a : Nat × Nat) : lexLe a a := by unfold lexLe; omega

theorem lexLe_trans {a b c : Nat × Nat} (h1 : lexLe a b) (h2 : lexLe b c) : lexLe a c := by
  unfold lexLe at *; omega

theorem lexLe_of_lt {a b : Nat × Nat} (h : lexLt a b) : lexLe a b := by
  unfold lexLe lexLt at *; omega

theorem lexLt_of_le_of_lt {a b c : Nat × Nat} (h1 : lexLe a b) (h2 : lexLt b c) : lexLt a c := by
  unfold lexLe lexLt at *; omega

theorem lexLt_of_lt_of_le {a b c : Nat × Nat} (h1 : lexLt a b) (h2 : lexLe b c) : lexLt a c := by
  unfold lexLe lexLt at *; omega

theorem not_lexLe_of_lt {a b : Nat × Nat} (h : lexLt a b) : ¬ lexLe b a := by
  unfold lexLe lexLt at *; omega

theorem consumeChar_lex_le (src : List Char) (p : Cursor) :
    lexLe p.lc (consumeChar src p).lc := by
  unfold consumeChar Cursor.lc lexLe
  split
  · split <;> simp <;> omega
  · omega

theorem consumeChar_lex_lt {src : List Char} {p : Cursor} (h : p.pos < src.length) :
    lexLt p.lc (consumeChar src p).lc := by
  unfold consumeChar Cursor.lc lexLt
  split
  · split <;> simp <;> omega
  · omega

theorem pos_lt_of_peek_ne_nul {src : List Char} {p : Cursor}
    (h : peekChar src p ≠ Char.ofNat 0) : p.pos < src.length := by
  unfold peekChar at h
  split at h
  · assumption
  · exact absurd rfl h

theorem skipWhitespaceFuel_pos_le (src : List Char) :
    ∀ (fuel : Nat) (p : Cursor), p.pos ≤ (skipWhitespaceFuel src fuel p).pos := by
  intro fuel
  induction fuel with
  | zero =>
      intro p
      exact Nat.le_refl _
  | succ fuel ih =>
      intro p
      rw [skipWhitespaceFuel]
      dsimp only
      split
      · split
        · exact Nat.le_trans (consumeChar_pos_le src p) (ih _)
        · exact Nat.le_refl _
      · exact Nat.le_refl _

theorem skipWhitespaceFuel_lex_le (src : List Char) :
    ∀ (fuel : Nat) (p : Cursor), lexLe p.lc (skipWhitespaceFuel src fuel p).lc := by
  intro fuel
  induction fuel with
  | zero =>
      intro p
      exact lexLe_refl _
  | succ fuel ih =>
      intro p
      rw [skipWhitespaceFuel]
      dsimp only
      split
      · split
        · exact lexLe_trans (consumeChar_lex_le src p) (ih _)
        · exact lexLe_refl _
      · exact lexLe_refl _

theorem skipWhitespace_pos_le (src : List Char) (p : Cursor) :
    p.pos ≤ (skipWhitespace src p).pos :=
  skipWhitespaceFuel_pos_le src (src.length - p.pos) p

theorem skipWhitespace_lex_le (src : List Char) (p : Cursor) :
    lexLe p.lc (skipWhitespace src p).lc :=
  skipWhitespaceFuel_lex_le src (src.length - p.pos) p

theorem consumeN_pos_le (src : List Char) (k : Nat) (p : Cursor) :
    p.pos ≤ (consumeN src k p).pos := by
  induction k generalizing p with
  | zero => exact Nat.le_refl _
  | succ k ih =>
      exact Nat.le_trans (consumeChar_pos_le src p) (ih (consumeChar src p))

theorem consumeN_lex_le (src : List Char) (k : Nat) (p : Cursor) :
    lexLe p.lc (consumeN src k p).lc := by
  induction k generalizing p with
  | zero => exact lexLe_refl _
  | succ k ih =>
      exact lexLe_trans (consumeChar_lex_le src p) (ih (consumeChar src p))

theorem peekChar_eq {src : List Char} {p : Cursor} (h : p.pos < src.length) :
    peekChar src p = src[p.pos] := by
  unfold peekChar
  rw [dif_pos h]
  rfl

theorem scanString_nil (acc : List Char) : scanString [] acc = .eofPlain acc := rfl

theorem scanString_cons (c : Char) (rest acc : List Char) :
    scanString (c :: rest) acc =
      if c = '"' then .closed acc
      else if c = '\\' then
        match rest with
        | [] => .eofEsc acc
        | e :: rest2 => scanString rest2 (acc ++ [e])
      else scanString rest (acc ++ [c]) := by
  cases rest <;> rfl

/-- `parseStringLoopFuel` agrees with `scanString` on the remaining input
whenever the fuel covers the remaining input: same outcome kind, same
accumulated content, and the final cursor moves forward (strictly, when the
string is closed) with lex-monotone (line, col). -/
theorem parseStringLoopFuel_spec (src : List Char) :
    ∀ (fuel : Nat) (p : Cursor) (acc : List Char), src.length ≤ p.pos + fuel →
    (∀ c p', parseStringLoopFuel src fuel p acc = .closed c p' →
       scanString (src.drop p.pos) acc = .closed c ∧
       p.pos < p'.pos ∧ p'.pos ≤ src.length ∧ lexLe p.lc p'.lc) ∧
    (∀ c p', parseStringLoopFuel src fuel p acc = .eofIn c p' →
       scanString (src.drop p.pos) acc = .eofPlain c ∧
       p.pos ≤ p'.pos ∧ src.length ≤ p'.pos ∧ lexLe p.lc p'.lc) ∧
    (∀ p', parseStringLoopFuel src fuel p acc = .eofEsc p' →
       (∃ c2, scanString (src.drop p.pos) acc = .eofEsc c2) ∧
       p.pos ≤ p'.pos ∧ src.length ≤ p'.pos ∧ lexLe p.lc p'.lc) := by
  intro fuel
  induction fuel with
  | zero =>
      intro p acc hfuel
      have h : src.length ≤ p.pos := by omega
      have hscan : scanString (src.drop p.pos) acc = .eofPlain acc := by
        rw [List.drop_eq_nil_of_le h, scanString_nil]
      refine ⟨?_, ?_, ?_⟩
      · intro c p' h'
        exact StrScan.noConfusion h'
      · intro c p' h'
        injection h' with h1 h2
        subst h1; subst h2
        exact ⟨hscan, Nat.le_refl _, h, lexLe_refl _⟩
      · intro p' h'
        exact StrScan.noConfusion h'
  | succ fuel ih =>
      intro p acc hfuel
      by_cases h : src.length ≤ p.pos
      · have heq : parseStringLoopFuel src (fuel + 1) p acc = .eofIn acc p := by
          rw [parseStringLoopFuel]
          rw [if_pos h]
        have hscan : scanString (src.drop p.pos) acc = .eofPlain acc := by
          rw [List.drop_eq_nil_of_le h, scanString_nil]
        refine ⟨?_, ?_, ?_⟩
        · intro c p' h'
          rw [heq] at h'
          exact StrScan.noConfusion h'
        · intro c p' h'
          rw [heq] at h'
          injection h' with h1 h2
          subst h1; subst h2
          exact ⟨hscan, Nat.le_refl _, h, lexLe_refl _⟩
        · intro p' h'
          rw [heq] at h'
          exact StrScan.noConfusion h'
      · have hlt : p.pos < src.length := by omega
        by_cases hq : peekChar src p = '"'
        · have heq : parseStringLoopFuel src (fuel + 1) p acc =
              .closed acc (consumeChar src p) := by
            rw [parseStringLoopFuel]
            dsimp only
            rw [if_neg h, if_pos hq]
          have hscan : scanString (src.drop p.pos) acc = .closed acc := by
            rw [List.drop_eq_getElem_cons hlt, ← peekChar_eq hlt]
            rw [scanString_cons, if_pos hq]
          refine ⟨?_, ?_, ?_⟩
          · intro c p' h'
            rw [heq] at h'
            injection h' with h1 h2
            subst h1; subst h2
            refine ⟨hscan, ?_, ?_, lexLe_of_lt (consumeChar_lex_lt hlt)⟩
            · rw [consumeChar_pos_eq hlt]
              omega
            · rw [consumeChar_pos_eq hlt]
              omega
          · intro c p' h'
            rw [heq] at h'
            exact StrScan.noConfusion h'
          · intro p' h'
            rw [heq] at h'
            exact StrScan.noConfusion h'
        · by_cases hbs : peekChar src p = '\\'
          · have hc1 : (consumeChar src p).pos = p.pos + 1 := consumeChar_pos_eq hlt
            by_cases h2 : src.length ≤ (consumeChar src p).pos
            · have heq : parseStringLoopFuel src (fuel + 1) p acc =
                  .eofEsc (consumeChar src p) := by
                rw [parseStringLoopFuel]
                dsimp only
                rw [if_neg h, if_neg hq, if_pos hbs, if_pos h2]
              have hscan : scanString (src.drop p.pos) acc = .eofEsc acc := by
                have hrest : src.drop (p.pos + 1) = [] := List.drop_eq_nil_of_le (by omega)
                rw [List.drop_eq_getElem_cons hlt, ← peekChar_eq hlt, hrest]
                rw [scanString_cons, if_neg hq, if_pos hbs]
              refine ⟨?_, ?_, ?_⟩
              · intro c p' h'
                rw [heq] at h'
                exact StrScan.noConfusion h'
              · intro c p' h'
                rw [heq] at h'
                exact StrScan.noConfusion h'
              · intro p' h'
                rw [heq] at h'
                injection h' with h1
                subst h1
                exact ⟨⟨acc, hscan⟩, by omega, by omega,
                  lexLe_of_lt (consumeChar_lex_lt hlt)⟩
            · have hlt2 : (consumeChar src p).pos < src.length := by omega
              have hc2 : (consumeChar src (consumeChar src p)).pos = p.pos + 2 := by
                rw [consumeChar_pos_eq hlt2]
                omega
              have heq : parseStringLoopFuel src (fuel + 1) p acc =
                  parseStringLoopFuel src fuel (consumeChar src (consumeChar src p))
                    (acc ++ [peekChar src (consumeChar src p)]) := by
                rw [parseStringLoopFuel]
                dsimp only
                rw [if_neg h, if_neg hq, if_pos hbs, if_neg h2]
              have hscan : scanString (src.drop p.pos) acc =
                  scanString (src.drop (consumeChar src (consumeChar src p)).pos)
                    (acc ++ [peekChar src (consumeChar src p)]) := by
                have hx : p.pos + 1 < src.length := by omega
                have hpk : src[p.pos + 1] = peekChar src (consumeChar src p) := by
                  rw [peekChar_eq hlt2]
                  simp [hc1]
                rw [List.drop_eq_getElem_cons hlt, ← peekChar_eq hlt]
                rw [List.drop_eq_getElem_cons hx, hpk]
                rw [scanString_cons, if_neg hq, if_pos hbs, ← hc2]
              have hlex1 : lexLe p.lc (consumeChar src (consumeChar src p)).lc :=
                lexLe_trans (consumeChar_lex_le src p)
                  (consumeChar_lex_le src (consumeChar src p))
              have hih := ih (consumeChar src (consumeChar src p))
                (acc ++ [peekChar src (consumeChar src p)]) (by omega)
              refine ⟨?_, ?_, ?_⟩
              · intro c p' h'
                rw [heq] at h'
                obtain ⟨hs, hp1, hp2, hp3⟩ := hih.1 c p' h'
                exact ⟨by rw [hscan]; exact hs, by omega, hp2, lexLe_trans hlex1 hp3⟩
              · intro c p' h'
                rw [heq] at h'
                obtain ⟨hs, hp1, hp2, hp3⟩ := hih.2.1 c p' h'
                exact ⟨by rw [hscan]; exact hs, by omega, hp2, lexLe_trans hlex1 hp3⟩
              · intro p' h'
                rw [heq] at h'
                obtain ⟨hs, hp1, hp2, hp3⟩ := hih.2.2 p' h'
                exact ⟨by rw [hscan]; exact hs, by omega, hp2, lexLe_trans hlex1 hp3⟩
          · have hc1 : (consumeChar src p).pos = p.pos + 1 := consumeChar_pos_eq hlt
            have heq : parseStringLoopFuel src (fuel + 1) p acc =
                parseStringLoopFuel src fuel (consumeChar src p)
                  (acc ++ [peekChar src p]) := by
              rw [parseStringLoopFuel]
              dsimp only
              rw [if_neg h, if_neg hq, if_neg hbs]
            have hscan : scanString (src.drop p.pos) acc =
                scanString (src.drop (consumeChar src p).pos) (acc ++ [peekChar src p]) := by
              rw [List.drop_eq_getElem_cons hlt, ← peekChar_eq hlt]
              rw [scanString_cons, if_neg hq, if_neg hbs, hc1]
            have hlex1 : lexLe p.lc (consumeChar src p).lc := consumeChar_lex_le src p
            have hpos1 : p.pos ≤ (consumeChar src p).pos := consumeChar_pos_le src p
            have hih := ih (consumeChar src p) (acc ++ [peekChar src p]) (by omega)
            refine ⟨?_, ?_, ?_⟩
            · intro c p' h'
              rw [heq] at h'
              obtain ⟨hs, hp1, hp2, hp3⟩ := hih.1 c p' h'
              exact ⟨by rw [hscan]; exact hs, by omega, hp2, lexLe_trans hlex1 hp3⟩
            · intro c p' h'
              rw [heq] at h'
              obtain ⟨hs, hp1, hp2, hp3⟩ := hih.2.1 c p' h'
              exact ⟨by rw [hscan]; exact hs, by omega, hp2, lexLe_trans hlex1 hp3⟩
            · intro p' h'
              rw [heq] at h'
              obtain ⟨hs, hp1, hp2, hp3⟩ := hih.2.2 p' h'
              exact ⟨by rw [hscan]; exact hs, by omega, hp2, lexLe_trans hlex1 hp3⟩

/-- `parseStringLoop` agrees with `scanString` on the remaining input:
same outcome kind, same accumulated content, and the final cursor moves
forward (strictly, when the string is closed) with lex-monotone (line, col). -/
theorem parseStringLoop_spec (src : List Char) (p : Cursor) (acc : List Char) :
    (∀ c p', parseStringLoop src p acc = .closed c p' →
       scanString (src.drop p.pos) acc = .closed c ∧
       p.pos < p'.pos ∧ p'.pos ≤ src.length ∧ lexLe p.lc p'.lc) ∧
    (∀ c p', parseStringLoop src p acc = .eofIn c p' →
       scanString (src.drop p.pos) acc = .eofPlain c ∧
       p.pos ≤ p'.pos ∧ src.length ≤ p'.pos ∧ lexLe p.lc p'.lc) ∧
    (∀ p', parseStringLoop src p acc = .eofEsc p' →
       (∃ c2, scanString (src.drop p.pos) acc = .eofEsc c2) ∧
       p.pos ≤ p'.pos ∧ src.length ≤ p'.pos ∧ lexLe p.lc p'.lc) :=
  parseStringLoopFuel_spec src (src.length - p.pos) p acc (by omega)

theorem drop_consumeChar (src : List Char) (p : Cursor) :
    src.drop (consumeChar src p).pos = src.drop (p.pos + 1) := by
  by_cases h : p.pos < src.length
  · rw [consumeChar_pos_eq h]
  · have hp : (consumeChar src p).pos = p.pos := by
      unfold consumeChar; rw [dif_neg h]
    rw [hp, List.drop_eq_nil_of_le (by omega), List.drop_eq_nil_of_le (by omega)]

theorem parseString_eq (src : List Char) (p : Cursor) :
    parseString src p =
      match parseStringLoop src (consumeChar src p) [] with
      | .closed acc p2 =>
          ⟨⟨.string, acc, [], p.line, p.col, p2.line, p2.col, src⟩, p2, none⟩
      | .eofIn acc p2 =>
          ⟨⟨.string, acc, [], p.line, p.col, p2.line, p2.col, src⟩, p2, some msgEOFString⟩
      | .eofEsc p2 =>
          ⟨⟨.string, [], [], p.line, p.col, 0, 0, src⟩, p2, some msgEOFStringEscape⟩ := by
  unfold parseString
  rcases parseStringLoop src (consumeChar src p) [] with ⟨c, q⟩ | ⟨c, q⟩ | q <;> rfl

theorem parseString_ok {src : List Char} {p : Cursor}
    (h : (parseString src p).errMsg = none) :
    scalarOk .string p (parseString src p) ∧ p.pos < (parseString src p).cur.pos := by
  have hspec := parseStringLoop_spec src (consumeChar src p) []
  rw [parseString_eq] at h ⊢
  cases hl : parseStringLoop src (consumeChar src p) [] with
  | closed c p2 =>
      obtain ⟨hs, hp1, hp2, hp3⟩ := hspec.1 c p2 hl
      have hcp := consumeChar_pos_le src p
      have hcl := consumeChar_lex_le src p
      refine ⟨⟨rfl, rfl, rfl, rfl, rfl, rfl, ?_, lexLe_trans hcl hp3⟩, ?_⟩
      · show p.pos ≤ p2.pos
        omega
      · show p.pos < p2.pos
        omega
  | eofIn c p2 =>
      rw [hl] at h
      exact Option.noConfusion h
  | eofEsc p2 =>
      rw [hl] at h
      exact Option.noConfusion h

/-- If the content scan of the input after the opening quote reports plain
end-of-input, `parseString` fails with the in-string end-of-input message,
the node\'s literal is the scanned content, and the node\'s end is the cursor
at the failure point (which is at end of input). -/
theorem parseString_eofPlain {src : List Char} {p : Cursor} {content : List Char}
    (h : scanString (src.drop (p.pos + 1)) [] = .eofPlain content) :
    ∃ p2 : Cursor,
      parseString src p =
        ⟨⟨.string, content, [], p.line, p.col, p2.line, p2.col, src⟩, p2, some msgEOFString⟩ ∧
      src.length ≤ p2.pos ∧ lexLe p.lc p2.lc := by
  have hspec := parseStringLoop_spec src (consumeChar src p) []
  rw [← drop_consumeChar src p] at h
  rw [parseString_eq]
  cases hl : parseStringLoop src (consumeChar src p) [] with
  | closed c p2 =>
      obtain ⟨hs, _, _, _⟩ := hspec.1 c p2 hl
      rw [hs] at h
      exact ScanOut.noConfusion h
  | eofIn c p2 =>
      obtain ⟨hs, hp1, hp2, hp3⟩ := hspec.2.1 c p2 hl
      rw [hs] at h
      injection h with hc
      subst hc
      exact ⟨p2, rfl, hp2, lexLe_trans (consumeChar_lex_le src p) hp3⟩
  | eofEsc p2 =>
      obtain ⟨⟨c2, hs⟩, _, _, _⟩ := hspec.2.2 p2 hl
      rw [hs] at h
      exact ScanOut.noConfusion h

/-- If the content scan of the input after the opening quote finds an
unescaped closing quote, `parseString` succeeds and the node\'s literal is
exactly the scanned content (escapes collapsed to the escaped character). -/
theorem parseString_closed {src : List Char} {p : Cursor} {content : List Char}
    (h : scanString (src.drop (p.pos + 1)) [] = .closed content) :
    (parseString src p).errMsg = none ∧ (parseString src p).node.value = content := by
  have hspec := parseStringLoop_spec src (consumeChar src p) []
  rw [← drop_consumeChar src p] at h
  rw [parseString_eq]
  cases hl : parseStringLoop src (consumeChar src p) [] with
  | closed c p2 =>
      obtain ⟨hs, _, _, _⟩ := hspec.1 c p2 hl
      rw [hs] at h
      injection h with hc
      subst hc
      exact ⟨rfl, rfl⟩
  | eofIn c p2 =>
      obtain ⟨hs, _, _, _⟩ := hspec.2.1 c p2 hl
      rw [hs] at h
      exact ScanOut.noConfusion h
  | eofEsc p2 =>
      obtain ⟨⟨c2, hs⟩, _, _, _⟩ := hspec.2.2 p2 hl
      rw [hs] at h
      exact ScanOut.noConfusion h

/-- If end of input is reached right after a backslash, `parseString` fails
with the distinct escape message and returns the node untouched: empty
literal and zero end position. -/
theorem parseString_eofEsc {src : List Char} {p : Cursor} {content : List Char}
    (h : scanString (src.drop (p.pos + 1)) [] = .eofEsc content) :
    ∃ p2 : Cursor,
      parseString src p =
        ⟨⟨.string, [], [], p.line, p.col, 0, 0, src⟩, p2, some msgEOFStringEscape⟩ := by
  have hspec := parseStringLoop_spec src (consumeChar src p) []
  rw [← drop_consumeChar src p] at h
  rw [parseString_eq]
  cases hl : parseStringLoop src (consumeChar src p) [] with
  | closed c p2 =>
      obtain ⟨hs, _, _, _⟩ := hspec.1 c p2 hl
      rw [hs] at h
      exact ScanOut.noConfusion h
  | eofIn c p2 =>
      obtain ⟨hs, _, _, _⟩ := hspec.2.1 c p2 hl
      rw [hs] at h
      exact ScanOut.noConfusion h
  | eofEsc p2 =>
      exact ⟨p2, rfl⟩

/-- `parseNumberLoopFuel` with fuel covering the remaining input consumes
exactly the `numberChar` prefix of the remaining input, appends it to the
accumulator, and moves the cursor over it lex-monotonically. -/
theorem parseNumberLoopFuel_spec (src : List Char) :
    ∀ (fuel : Nat) (p : Cursor) (acc : List Char), src.length ≤ p.pos + fuel →
    (parseNumberLoopFuel src fuel p acc).1 = acc ++ (src.drop p.pos).takeWhile numberChar ∧
    (parseNumberLoopFuel src fuel p acc).2.pos =
      p.pos + ((src.drop p.pos).takeWhile numberChar).length ∧
    lexLe p.lc (parseNumberLoopFuel src fuel p acc).2.lc := by
  intro fuel
  induction fuel with
  | zero =>
      intro p acc hfuel
      rw [List.drop_eq_nil_of_le (by omega)]
      exact ⟨by simp [parseNumberLoopFuel], by simp [parseNumberLoopFuel], lexLe_refl _⟩
  | succ fuel ih =>
      intro p acc hfuel
      by_cases h : p.pos < src.length
      · have hdrop : src.drop p.pos = peekChar src p :: src.drop (p.pos + 1) := by
          rw [List.drop_eq_getElem_cons h, ← peekChar_eq h]
        have hc1 : (consumeChar src p).pos = p.pos + 1 := consumeChar_pos_eq h
        by_cases hn : numberChar (peekChar src p) = true
        · have heq : parseNumberLoopFuel src (fuel + 1) p acc =
              parseNumberLoopFuel src fuel (consumeChar src p)
                (acc ++ [peekChar src p]) := by
            rw [parseNumberLoopFuel]
            dsimp only
            rw [if_pos h, if_pos hn]
          rw [heq, hdrop, List.takeWhile_cons, if_pos hn]
          obtain ⟨ih1, ih2, ih3⟩ := ih (consumeChar src p) (acc ++ [peekChar src p]) (by omega)
          rw [hc1] at ih1 ih2
          refine ⟨?_, ?_, lexLe_trans (consumeChar_lex_le src p) ih3⟩
          · rw [ih1]
            simp
          · rw [ih2]
            simp
            omega
        · have heq : parseNumberLoopFuel src (fuel + 1) p acc = (acc, p) := by
            rw [parseNumberLoopFuel]
            dsimp only
            rw [if_pos h, if_neg hn]
          rw [heq, hdrop, List.takeWhile_cons, if_neg hn]
          exact ⟨by simp, by simp, lexLe_refl _⟩
      · have heq : parseNumberLoopFuel src (fuel + 1) p acc = (acc, p) := by
          rw [parseNumberLoopFuel]
          dsimp only
          rw [if_neg h]
        rw [heq, List.drop_eq_nil_of_le (by omega)]
        exact ⟨by simp, by simp, lexLe_refl _⟩

/-- `parseNumberLoop` consumes exactly the `numberChar` prefix of the
remaining input, appends it to the accumulator, and moves the cursor over
it lex-monotonically. -/
theorem parseNumberLoop_spec (src : List Char) (p : Cursor) (acc : List Char) :
    (parseNumberLoop src p acc).1 = acc ++ (src.drop p.pos).takeWhile numberChar ∧
    (parseNumberLoop src p acc).2.pos =
      p.pos + ((src.drop p.pos).takeWhile numberChar).length ∧
    lexLe p.lc (parseNumberLoop src p acc).2.lc :=
  parseNumberLoopFuel_spec src (src.length - p.pos) p acc (by omega)

/-- `parseNumber` never fails; it stores the maximal `numberChar` prefix of
the remaining input as the literal and consumes exactly that prefix. -/
theorem parseNumber_spec (src : List Char) (p : Cursor) :
    (parseNumber src p).errMsg = none ∧
    (parseNumber src p).node.value = (src.drop p.pos).takeWhile numberChar ∧
    (parseNumber src p).cur.pos =
      p.pos + ((src.drop p.pos).takeWhile numberChar).length ∧
    scalarOk .number p (parseNumber src p) := by
  obtain ⟨h1, h2, h3⟩ := parseNumberLoop_spec src p []
  refine ⟨rfl, ?_, ?_, rfl, rfl, rfl, rfl, rfl, rfl, ?_, h3⟩
  · show (parseNumberLoop src p []).1 = _
    rw [h1]
    exact List.nil_append _
  · show (parseNumberLoop src p []).2.pos = _
    exact h2
  · show p.pos ≤ (parseNumberLoop src p []).2.pos
    rw [h2]
    omega

theorem parseBoolean_ok {src : List Char} {p : Cursor}
    (h : (parseBoolean src p).errMsg = none) :
    scalarOk .boolean p (parseBoolean src p) := by
  unfold parseBoolean at *
  split_ifs at h ⊢ with ht hf
  all_goals first
  | exact ⟨rfl, rfl, rfl, rfl, rfl, rfl, consumeN_pos_le src 4 p, consumeN_lex_le src 4 p⟩
  | exact ⟨rfl, rfl, rfl, rfl, rfl, rfl, consumeN_pos_le src 5 p, consumeN_lex_le src 5 p⟩
  | exact Option.noConfusion h

theorem parseNull_ok {src : List Char} {p : Cursor}
    (h : (parseNull src p).errMsg = none) :
    scalarOk .null p (parseNull src p) := by
  unfold parseNull at *
  split_ifs at h ⊢ with ht
  all_goals first
  | exact ⟨rfl, rfl, rfl, rfl, rfl, rfl, consumeN_pos_le src 4 p, consumeN_lex_le src 4 p⟩
  | exact Option.noConfusion h

theorem EveryNode.self {P : Node → Prop} {n : Node} (h : EveryNode P n) : P n := by
  cases h with
  | mk n hp hc => exact hp

theorem EveryNode.child {P : Node → Prop} {n : Node} (h : EveryNode P n) :
    ∀ c ∈ n.children, EveryNode P c := by
  cases h with
  | mk n hp hc => exact hc

theorem EveryNode.imp {P Q : Node → Prop} (hpq : ∀ m, P m → Q m) :
    ∀ {n : Node}, EveryNode P n → EveryNode Q n := by
  intro n h
  induction h with
  | mk n hp hc ih => exact .mk n (hpq n hp) ih

theorem scalar_GoodT {t : NodeType} {p : Cursor} {r : SRes}
    (ht : t ≠ .object) (h : scalarOk t p r) : GoodT r.node := by
  obtain ⟨h1, h2, h3, h4, h5, h6, h7, h8⟩ := h
  refine .mk _ ⟨?_, ?_⟩ ?_
  · unfold spanOrdered Node.startPair Node.endPair
    rw [h3, h4, h5, h6]
    exact h8
  · intro hobj
    rw [h1] at hobj
    exact absurd hobj ht
  · intro c hc
    rw [h2] at hc
    exact absurd hc (List.not_mem_nil c)

theorem scalar_topOk {t : NodeType} {p q : Cursor} {r : SRes}
    (ht : t ≠ .object) (hok : scalarOk t q r)
    (hpos : p.pos ≤ q.pos) (hlex : lexLe p.lc q.lc) :
    topOk p r.node r.cur := by
  obtain ⟨h1, h2, h3, h4, h5, h6, h7, h8⟩ := hok
  refine ⟨by omega, lexLe_trans hlex h8, ?_, ?_, scalar_GoodT ht ⟨h1, h2, h3, h4, h5, h6, h7, h8⟩⟩
  · unfold Node.startPair
    rw [h3, h4]
    exact hlex
  · unfold Node.endPair
    rw [h5, h6]
    rfl

theorem parseGood (src : List Char) : ∀ fuel : Nat,
    (∀ p n p', parseValue src fuel p = .ok n p' → topOk p n p') ∧
    (∀ p n p', parseObject src fuel p = .ok n p' → topOk p n p') ∧
    (∀ p n p', parseArray src fuel p = .ok n p' → topOk p n p') ∧
    (∀ p n0 n p', n0.type = .object →
       lexLe n0.startPair p.lc →
       (∀ k ∈ n0.children, keyShape k ∧ GoodT k) →
       parseObjectLoop src fuel p n0 = .ok n p' → loopOk n0 p n p') ∧
    (∀ p n0 n p', n0.type = .array →
       lexLe n0.startPair p.lc →
       (∀ c ∈ n0.children, GoodT c) →
       parseArrayLoop src fuel p n0 = .ok n p' → loopOk n0 p n p') := by
  intro fuel
  induction fuel with
  | zero =>
      refine ⟨?_, ?_, ?_, ?_, ?_⟩
      · intro p n p' h
        rw [parseValue] at h
        exact PRes.noConfusion h
      · intro p n p' h
        rw [parseObject] at h
        exact PRes.noConfusion h
      · intro p n p' h
        rw [parseArray] at h
        exact PRes.noConfusion h
      · intro p n0 n p' _ _ _ h
        rw [parseObjectLoop] at h
        exact PRes.noConfusion h
      · intro p n0 n p' _ _ _ h
        rw [parseArrayLoop] at h
        exact PRes.noConfusion h
  | succ fuel ih =>
      obtain ⟨ihV, ihO, ihA, ihOL, ihAL⟩ := ih
      refine ⟨?_, ?_, ?_, ?_, ?_⟩
      -- parseValue
      · intro p n p' h
        rw [parseValue] at h
        dsimp only at h
        have hq1pos := skipWhitespace_pos_le src p
        have hq1lex := skipWhitespace_lex_le src p
        split at h
        · exact PRes.noConfusion h
        · split at h
          · obtain ⟨a1, a2, a3, a4, a5⟩ := ihO _ n p' h
            refine ⟨by omega, ?_, ?_, a4, a5⟩
            · exact lexLe_trans hq1lex a2
            · exact lexLe_trans hq1lex a3
          · split at h
            · obtain ⟨a1, a2, a3, a4, a5⟩ := ihA _ n p' h
              refine ⟨by omega, ?_, ?_, a4, a5⟩
              · exact lexLe_trans hq1lex a2
              · exact lexLe_trans hq1lex a3
            · split at h
              · cases hm : (parseString src (skipWhitespace src p)).errMsg with
                | some m =>
                    unfold toPRes at h
                    rw [hm] at h
                    exact PRes.noConfusion h
                | none =>
                    unfold toPRes at h
                    rw [hm] at h
                    dsimp only at h
                    injection h with h1 h2
                    subst h1; subst h2
                    exact scalar_topOk (by decide) (parseString_ok hm).1 hq1pos hq1lex
              · split at h
                · cases hm : (parseBoolean src (skipWhitespace src p)).errMsg with
                  | some m =>
                      unfold toPRes at h
                      rw [hm] at h
                      exact PRes.noConfusion h
                  | none =>
                      unfold toPRes at h
                      rw [hm] at h
                      dsimp only at h
                      injection h with h1 h2
                      subst h1; subst h2
                      exact scalar_topOk (by decide) (parseBoolean_ok hm) hq1pos hq1lex
                · split at h
                  · cases hm : (parseNull src (skipWhitespace src p)).errMsg with
                    | some m =>
                        unfold toPRes at h
                        rw [hm] at h
                        exact PRes.noConfusion h
                    | none =>
                        unfold toPRes at h
                        rw [hm] at h
                        dsimp only at h
                        injection h with h1 h2
                        subst h1; subst h2
                        exact scalar_topOk (by decide) (parseNull_ok hm) hq1pos hq1lex
                  · obtain ⟨e1, e2, e3, e4⟩ := parseNumber_spec src (skipWhitespace src p)
                    unfold toPRes at h
                    rw [e1] at h
                    dsimp only at h
                    injection h with h1 h2
                    subst h1; subst h2
                    exact scalar_topOk (by decide) e4 hq1pos hq1lex
      -- parseObject
      · intro p n p' h
        rw [parseObject] at h
        dsimp only at h
        have hc0pos := consumeChar_pos_le src p
        have hc0lex := consumeChar_lex_le src p
        have hq1pos := skipWhitespace_pos_le src (consumeChar src p)
        have hq1lex := skipWhitespace_lex_le src (consumeChar src p)
        split at h
        · injection h with h1 h2
          subst h1; subst h2
          have hc2pos := consumeChar_pos_le src (skipWhitespace src (consumeChar src p))
          have hc2lex := consumeChar_lex_le src (skipWhitespace src (consumeChar src p))
          refine ⟨by omega, ?_, ?_, rfl, ?_⟩
          · exact lexLe_trans hc0lex (lexLe_trans hq1lex hc2lex)
          · show lexLe p.lc p.lc
            exact lexLe_refl _
          · refine .mk _ ⟨?_, ?_⟩ ?_
            · show lexLe p.lc
                (consumeChar src (skipWhitespace src (consumeChar src p))).lc
              exact lexLe_trans hc0lex (lexLe_trans hq1lex hc2lex)
            · intro _ k hk
              exact absurd hk (List.not_mem_nil k)
            · intro c hc
              exact absurd hc (List.not_mem_nil c)
        · have hres := ihOL (skipWhitespace src (consumeChar src p))
            ⟨.object, [], [], p.line, p.col, 0, 0, src⟩ n p' rfl
            (lexLe_trans hc0lex hq1lex)
            (by intro k hk; exact absurd hk (List.not_mem_nil k)) h
          obtain ⟨a1, a2, a3, a4, a5, a6⟩ := hres
          refine ⟨by omega, lexLe_trans hc0lex (lexLe_trans hq1lex a2), ?_, a5, a6⟩
          · rw [a3]
            exact lexLe_refl _
      -- parseArray
      · intro p n p' h
        rw [parseArray] at h
        dsimp only at h
        have hc0pos := consumeChar_pos_le src p
        have hc0lex := consumeChar_lex_le src p
        have hq1pos := skipWhitespace_pos_le src (consumeChar src p)
        have hq1lex := skipWhitespace_lex_le src (consumeChar src p)
        split at h
        · injection h with h1 h2
          subst h1; subst h2
          have hc2pos := consumeChar_pos_le src (skipWhitespace src (consumeChar src p))
          have hc2lex := consumeChar_lex_le src (skipWhitespace src (consumeChar src p))
          refine ⟨by omega, ?_, ?_, rfl, ?_⟩
          · exact lexLe_trans hc0lex (lexLe_trans hq1lex hc2lex)
          · show lexLe p.lc p.lc
            exact lexLe_refl _
          · refine .mk _ ⟨?_, ?_⟩ ?_
            · show lexLe p.lc
                (consumeChar src (skipWhitespace src (consumeChar src p))).lc
              exact lexLe_trans hc0lex (lexLe_trans hq1lex hc2lex)
            · intro hobj
              have hx : NodeType.array = NodeType.object := hobj
              exact absurd hx (by decide)
            · intro c hc
              exact absurd hc (List.not_mem_nil c)
        · have hres := ihAL (skipWhitespace src (consumeChar src p))
            ⟨.array, [], [], p.line, p.col, 0, 0, src⟩ n p' rfl
            (lexLe_trans hc0lex hq1lex)
            (by intro c hc; exact absurd hc (List.not_mem_nil c)) h
          obtain ⟨a1, a2, a3, a4, a5, a6⟩ := hres
          refine ⟨by omega, lexLe_trans hc0lex (lexLe_trans hq1lex a2), ?_, a5, a6⟩
          · rw [a3]
            exact lexLe_refl _
      -- parseObjectLoop
      · intro p n0 n p' h0type h0start h0kids h
        rw [parseObjectLoop] at h
        dsimp only at h
        have hq1pos := skipWhitespace_pos_le src p
        have hq1lex := skipWhitespace_lex_le src p
        split at h
        · exact PRes.noConfusion h
        · cases hm : (parseString src (skipWhitespace src p)).errMsg with
          | some m =>
              rw [hm] at h
              dsimp only at h
              exact PRes.noConfusion h
          | none =>
              rw [hm] at h
              dsimp only at h
              obtain ⟨⟨k1, k2, k3, k4, k5, k6, k7, k8⟩, kstrict⟩ := parseString_ok hm
              have hq3pos := skipWhitespace_pos_le src
                (parseString src (skipWhitespace src p)).cur
              have hq3lex := skipWhitespace_lex_le src
                (parseString src (skipWhitespace src p)).cur
              split at h
              · exact PRes.noConfusion h
              · rename_i hcolonq
                have hcolon : peekChar src
                    (skipWhitespace src (parseString src (skipWhitespace src p)).cur) = ':' := by
                  by_contra hx
                  exact hcolonq hx
                have hq3lt : (skipWhitespace src
                    (parseString src (skipWhitespace src p)).cur).pos < src.length := by
                  apply pos_lt_of_peek_ne_nul
                  rw [hcolon]
                  decide
                have hc4pos := consumeChar_pos_eq hq3lt
                have hc4lex := consumeChar_lex_lt hq3lt
                cases hv : parseValue src fuel (consumeChar src
                    (skipWhitespace src (parseString src (skipWhitespace src p)).cur)) with
                | out =>
                    rw [hv] at h
                    exact PRes.noConfusion h
                | err vn vm vp =>
                    rw [hv] at h
                    exact PRes.noConfusion h
                | ok v p5 =>
                    rw [hv] at h
                    dsimp only at h
                    obtain ⟨v1, v2, v3, v4, v5⟩ := ihV _ v p5 hv
                    have hq6pos := skipWhitespace_pos_le src p5
                    have hq6lex := skipWhitespace_lex_le src p5
                    have hkeyshape : keyShape
                        { (parseString src (skipWhitespace src p)).node with children := [v] } := by
                      refine ⟨k1, v, rfl, ?_⟩
                      show lexLt
                        ((parseString src (skipWhitespace src p)).node.endLine,
                         (parseString src (skipWhitespace src p)).node.endCol) v.endPair
                      rw [k5, k6]
                      rw [show v.endPair = p5.lc from v4]
                      simp only [lexLe, lexLt, Cursor.lc] at hq3lex hc4lex v2 ⊢
                      omega
                    have hkeygood : GoodT
                        { (parseString src (skipWhitespace src p)).node with children := [v] } := by
                      refine .mk _ ⟨?_, ?_⟩ ?_
                      · show lexLe
                          ((parseString src (skipWhitespace src p)).node.startLine,
                           (parseString src (skipWhitespace src p)).node.startCol)
                          ((parseString src (skipWhitespace src p)).node.endLine,
                           (parseString src (skipWhitespace src p)).node.endCol)
                        rw [k3, k4, k5, k6]
                        exact k8
                      · intro hobj
                        have hx : (parseString src (skipWhitespace src p)).node.type =
                            NodeType.object := hobj
                        rw [k1] at hx
                        exact absurd hx (by decide)
                      · intro c hc
                        have hc' : c ∈ [v] := hc
                        rw [List.mem_singleton] at hc'
                        subst hc'
                        exact v5
                    have hn2kids : ∀ k ∈ n0.children ++
                        [{ (parseString src (skipWhitespace src p)).node with children := [v] }],
                        keyShape k ∧ GoodT k := by
                      intro k hk
                      rw [List.mem_append] at hk
                      rcases hk with hk | hk
                      · exact h0kids k hk
                      · rw [List.mem_singleton] at hk
                        subst hk
                        exact ⟨hkeyshape, hkeygood⟩
                    split at h
                    · injection h with h1 h2
                      subst h1; subst h2
                      have hc7pos := consumeChar_pos_le src (skipWhitespace src p5)
                      have hc7lex := consumeChar_lex_le src (skipWhitespace src p5)
                      have hplex : lexLe p.lc (consumeChar src (skipWhitespace src p5)).lc := by
                        simp only [lexLe, lexLt, Cursor.lc] at hq1lex k8 hq3lex hc4lex v2 hq6lex hc7lex ⊢
                        omega
                      refine ⟨by omega, hplex, rfl, rfl, rfl, ?_⟩
                      refine .mk _ ⟨?_, ?_⟩ ?_
                      · show lexLe (n0.startLine, n0.startCol)
                          ((consumeChar src (skipWhitespace src p5)).line,
                           (consumeChar src (skipWhitespace src p5)).col)
                        have hcast : lexLe (n0.startLine, n0.startCol) p.lc := h0start
                        exact lexLe_trans hcast hplex
                      · intro _ k hk
                        exact (hn2kids k hk).1
                      · intro c hc
                        exact (hn2kids c hc).2
                    · split at h
                      · have hc7pos := consumeChar_pos_le src (skipWhitespace src p5)
                        have hc7lex := consumeChar_lex_le src (skipWhitespace src p5)
                        have hplex : lexLe p.lc (consumeChar src (skipWhitespace src p5)).lc := by
                          simp only [lexLe, lexLt, Cursor.lc] at hq1lex k8 hq3lex hc4lex v2 hq6lex hc7lex ⊢
                          omega
                        have hres := ihOL (consumeChar src (skipWhitespace src p5))
                          { n0 with children := n0.children ++
                            [{ (parseString src (skipWhitespace src p)).node with
                              children := [v] }] } n p' h0type
                          (lexLe_trans h0start hplex) hn2kids h
                        obtain ⟨a1, a2, a3, a4, a5, a6⟩ := hres
                        refine ⟨by omega, lexLe_trans hplex a2, ?_, ?_, a5, a6⟩
                        · exact a3
                        · exact a4
                      · exact PRes.noConfusion h
      -- parseArrayLoop
      · intro p n0 n p' h0type h0start h0kids h
        rw [parseArrayLoop] at h
        dsimp only at h
        cases hv : parseValue src fuel p with
        | out =>
            rw [hv] at h
            exact PRes.noConfusion h
        | err vn vm vp =>
            rw [hv] at h
            exact PRes.noConfusion h
        | ok v p5 =>
            rw [hv] at h
            dsimp only at h
            obtain ⟨v1, v2, v3, v4, v5⟩ := ihV _ v p5 hv
            have hq6pos := skipWhitespace_pos_le src p5
            have hq6lex := skipWhitespace_lex_le src p5
            have hn2kids : ∀ c ∈ n0.children ++ [v], GoodT c := by
              intro c hc
              rw [List.mem_append] at hc
              rcases hc with hc | hc
              · exact h0kids c hc
              · rw [List.mem_singleton] at hc
                subst hc
                exact v5
            split at h
            · injection h with h1 h2
              subst h1; subst h2
              have hc7pos := consumeChar_pos_le src (skipWhitespace src p5)
              have hc7lex := consumeChar_lex_le src (skipWhitespace src p5)
              have hplex : lexLe p.lc (consumeChar src (skipWhitespace src p5)).lc := by
                simp only [lexLe, lexLt, Cursor.lc] at v2 hq6lex hc7lex ⊢
                omega
              refine ⟨by omega, hplex, rfl, rfl, rfl, ?_⟩
              refine .mk _ ⟨?_, ?_⟩ ?_
              · show lexLe (n0.startLine, n0.startCol)
                  ((consumeChar src (skipWhitespace src p5)).line,
                   (consumeChar src (skipWhitespace src p5)).col)
                have hcast : lexLe (n0.startLine, n0.startCol) p.lc := h0start
                exact lexLe_trans hcast hplex
              · intro hobj
                have hx : n0.type = NodeType.object := hobj
                rw [h0type] at hx
                exact absurd hx (by decide)
              · intro c hc
                exact hn2kids c hc
            · split at h
              · have hc7pos := consumeChar_pos_le src (skipWhitespace src p5)
                have hc7lex := consumeChar_lex_le src (skipWhitespace src p5)
                have hq8pos := skipWhitespace_pos_le src
                  (consumeChar src (skipWhitespace src p5))
                have hq8lex := skipWhitespace_lex_le src
                  (consumeChar src (skipWhitespace src p5))
                have hplex : lexLe p.lc (skipWhitespace src
                    (consumeChar src (skipWhitespace src p5))).lc := by
                  simp only [lexLe, lexLt, Cursor.lc] at v2 hq6lex hc7lex hq8lex ⊢
                  omega
                have hres := ihAL (skipWhitespace src (consumeChar src (skipWhitespace src p5)))
                  { n0 with children := n0.children ++ [v] } n p' h0type
                  (lexLe_trans h0start hplex) hn2kids h
                obtain ⟨a1, a2, a3, a4, a5, a6⟩ := hres
                refine ⟨by omega, lexLe_trans hplex a2, ?_, ?_, a5, a6⟩
                · exact a3
                · exact a4
              · exact PRes.noConfusion h

theorem toPRes_ne_out (r : SRes) : toPRes r ≠ .out := by
  unfold toPRes
  split <;> exact fun h => PRes.noConfusion h

/-- Fuel sufficiency: with fuel at least `3 * remaining + k` (k depending on
the function), none of the grammar functions runs out of fuel.  This is the
termination argument of the Go parser: every loop iteration and every level
of recursion consumes input. -/
theorem parseFuel (src : List Char) : ∀ fuel : Nat,
    (∀ p, 3 * (src.length - p.pos) + 3 ≤ fuel → parseValue src fuel p ≠ .out) ∧
    (∀ p, 3 * (src.length - p.pos) + 2 ≤ fuel → parseObject src fuel p ≠ .out) ∧
    (∀ p, 1 ≤ src.length - p.pos → 3 * (src.length - p.pos) + 2 ≤ fuel →
       parseArray src fuel p ≠ .out) ∧
    (∀ p n0, 3 * (src.length - p.pos) + 1 ≤ fuel → parseObjectLoop src fuel p n0 ≠ .out) ∧
    (∀ p n0, 3 * (src.length - p.pos) + 4 ≤ fuel → parseArrayLoop src fuel p n0 ≠ .out) := by
  intro fuel
  induction fuel with
  | zero =>
      refine ⟨?_, ?_, ?_, ?_, ?_⟩
      · intro p hf
        omega
      · intro p hf
        omega
      · intro p h1 hf
        omega
      · intro p n0 hf
        omega
      · intro p n0 hf
        omega
  | succ fuel ih =>
      obtain ⟨ihV, ihO, ihA, ihOL, ihAL⟩ := ih
      refine ⟨?_, ?_, ?_, ?_, ?_⟩
      -- parseValue
      · intro p hf heq
        rw [parseValue] at heq
        dsimp only at heq
        have hq1pos := skipWhitespace_pos_le src p
        split at heq
        · exact PRes.noConfusion heq
        · split at heq
          · exact ihO _ (by omega) heq
          · split at heq
            · rename_i hbr
              have hlt : (skipWhitespace src p).pos < src.length :=
                pos_lt_of_peek_ne_nul (by rw [hbr]; decide)
              exact ihA _ (by omega) (by omega) heq
            · split at heq
              · exact toPRes_ne_out _ heq
              · split at heq
                · exact toPRes_ne_out _ heq
                · split at heq
                  · exact toPRes_ne_out _ heq
                  · exact toPRes_ne_out _ heq
      -- parseObject
      · intro p hf heq
        rw [parseObject] at heq
        dsimp only at heq
        have hc0pos := consumeChar_pos_le src p
        have hq1pos := skipWhitespace_pos_le src (consumeChar src p)
        split at heq
        · exact PRes.noConfusion heq
        · by_cases hpl : p.pos < src.length
          · have hce := consumeChar_pos_eq hpl
            exact ihOL _ _ (by omega) heq
          · exact ihOL _ _ (by omega) heq
      -- parseArray
      · intro p h1 hf heq
        rw [parseArray] at heq
        dsimp only at heq
        have hpl : p.pos < src.length := by omega
        have hce := consumeChar_pos_eq hpl
        have hq1pos := skipWhitespace_pos_le src (consumeChar src p)
        split at heq
        · exact PRes.noConfusion heq
        · exact ihAL _ _ (by omega) heq
      -- parseObjectLoop
      · intro p n0 hf heq
        rw [parseObjectLoop] at heq
        dsimp only at heq
        have hq1pos := skipWhitespace_pos_le src p
        split at heq
        · exact PRes.noConfusion heq
        · rename_i hkeyq
          have hkey : peekChar src (skipWhitespace src p) = '"' := by
            by_contra hx
            exact hkeyq hx
          have hq1lt : (skipWhitespace src p).pos < src.length :=
            pos_lt_of_peek_ne_nul (by rw [hkey]; decide)
          cases hm : (parseString src (skipWhitespace src p)).errMsg with
          | some m =>
              rw [hm] at heq
              dsimp only at heq
              exact PRes.noConfusion heq
          | none =>
              rw [hm] at heq
              dsimp only at heq
              have kstrict := (parseString_ok hm).2
              have hq3pos := skipWhitespace_pos_le src
                (parseString src (skipWhitespace src p)).cur
              split at heq
              · exact PRes.noConfusion heq
              · rename_i hcolonq
                have hcolon : peekChar src
                    (skipWhitespace src (parseString src (skipWhitespace src p)).cur) = ':' := by
                  by_contra hx
                  exact hcolonq hx
                have hq3lt : (skipWhitespace src
                    (parseString src (skipWhitespace src p)).cur).pos < src.length :=
                  pos_lt_of_peek_ne_nul (by rw [hcolon]; decide)
                have hc4pos := consumeChar_pos_eq hq3lt
                cases hv : parseValue src fuel (consumeChar src
                    (skipWhitespace src (parseString src (skipWhitespace src p)).cur)) with
                | out =>
                    exact ihV _ (by omega) hv
                | err vn vm vp =>
                    rw [hv] at heq
                    dsimp only at heq
                    exact PRes.noConfusion heq
                | ok v p5 =>
                    rw [hv] at heq
                    dsimp only at heq
                    have v1 := ((parseGood src fuel).1 _ v p5 hv).1
                    have hq6pos := skipWhitespace_pos_le src p5
                    split at heq
                    · exact PRes.noConfusion heq
                    · split at heq
                      · rename_i hcomma
                        have hp6lt : (skipWhitespace src p5).pos < src.length :=
                          pos_lt_of_peek_ne_nul (by rw [hcomma]; decide)
                        have hc7 := consumeChar_pos_eq hp6lt
                        exact ihOL _ _ (by omega) heq
                      · exact PRes.noConfusion heq
      -- parseArrayLoop
      · intro p n0 hf heq
        rw [parseArrayLoop] at heq
        dsimp only at heq
        cases hv : parseValue src fuel p with
        | out =>
            exact ihV _ (by omega) hv
        | err vn vm vp =>
            rw [hv] at heq
            dsimp only at heq
            exact PRes.noConfusion heq
        | ok v p5 =>
            rw [hv] at heq
            dsimp only at heq
            have v1 := ((parseGood src fuel).1 _ v p5 hv).1
            have hq6pos := skipWhitespace_pos_le src p5
            split at heq
            · exact PRes.noConfusion heq
            · split at heq
              · rename_i hcomma
                have hp6lt : (skipWhitespace src p5).pos < src.length :=
                  pos_lt_of_peek_ne_nul (by rw [hcomma]; decide)
                have hc7 := consumeChar_pos_eq hp6lt
                have hq8pos := skipWhitespace_pos_le src
                  (consumeChar src (skipWhitespace src p5))
                exact ihAL _ _ (by omega) heq
              · exact PRes.noConfusion heq

theorem specWindow.mem_intRange {a b i : Int} :
    i ∈ specWindow.intRange a b ↔ a ≤ i ∧ i ≤ b := by
  unfold specWindow.intRange
  split
  · rename_i hab
    rw [List.mem_map]
    constructor
    · rintro ⟨k, hk, he⟩
      rw [List.mem_range] at hk
      omega
    · intro h12
      refine ⟨(i - a).toNat, ?_, ?_⟩
      · rw [List.mem_range]
        omega
      · omega
  · rename_i hab
    constructor
    · intro h
      exact absurd h (List.not_mem_nil i)
    · intro h12
      omega

theorem splitLines_ne_nil (s : List Char) : splitLines s ≠ [] := by
  induction s with
  | nil =>
      intro h
      exact List.noConfusion h
  | cons c rest ih =>
      unfold splitLines
      split
      · intro h
        exact List.noConfusion h
      · split
        · intro h
          exact List.noConfusion h
        · intro h
          exact List.noConfusion h

/-- The loop emits exactly one formatted source line (plus its caret lines)
for every index in `[i, stop]`, in order. -/
theorem debugRows_eq (n : Node) (lines : List (List Char)) :
    ∀ i stop : Int, debugRows n lines i stop =
      (specWindow.intRange i stop).flatMap
        (fun j => fmtLine j.toNat (lines.getD j.toNat []) :: caretRows n lines j.toNat) := by
  intro i stop
  induction i, stop using debugRows.induct n lines with
  | case1 i stop h =>
      rw [debugRows]
      rw [if_pos h]
      unfold specWindow.intRange
      rw [if_neg (by omega)]
      rfl
  | case2 i stop h ih =>
      rw [debugRows]
      rw [if_neg h]
      rw [ih]
      have hcons : specWindow.intRange i stop = i :: specWindow.intRange (i + 1) stop := by
        unfold specWindow.intRange
        rw [if_pos (show i ≤ stop by omega)]
        by_cases hlast : i + 1 ≤ stop
        · rw [if_pos hlast]
          have hlen : (stop - i + 1).toNat = (stop - (i + 1) + 1).toNat + 1 := by omega
          rw [hlen, List.range_succ_eq_map, List.map_cons, List.map_map]
          congr 1
          · omega
          · apply List.map_congr_left
            intro k hk
            simp only [Function.comp_apply]
            omega
        · rw [if_neg hlast]
          have hlen : (stop - i + 1).toNat = 1 := by omega
          rw [hlen]
          rw [show List.range 1 = [0] from rfl, List.map_cons, List.map_nil]
          congr 1
          omega
      rw [hcons]
      rw [List.flatMap_cons]

theorem debugStart_eq_max (n : Node) (lb : Int) :
    debugStart n lb = max 0 ((n.startLine : Int) - 1 - lb) := by
  unfold debugStart
  split <;> omega

theorem debugStop_eq_min (n : Node) (lineCount : Nat) (la : Int) :
    debugStop n lineCount la = min ((lineCount : Int) - 1) ((n.endLine : Int) - 1 + la) := by
  unfold debugStop
  split <;> omega

mutual

theorem structEq_refl : ∀ n : Node, structEq n n = true
  | ⟨t, v, c, sl, sc, el, ec, s⟩ => by
      rw [structEq]
      rw [structEqList_refl c]
      simp

theorem structEqList_refl : ∀ l : List Node, structEqList l l = true
  | [] => rfl
  | x :: xs => by
      rw [structEqList]
      rw [structEq_refl x, structEqList_refl xs]
      rfl

end

/-- C1 (amended): for every tree returned by `Parse` without an error, every
node satisfies `startLine ≤ endLine`, and when they are equal,
`startCol ≤ endCol`.  (As originally stated — including partial nodes
returned together with an error — the claim is false; see the
counterexample.) -/
theorem C1_success_span_invariant : ∀ (src : List Char) (n : Node),
    Parse src = (some n, none) → EveryNode claimedSpanInv n := by
  intro src n h
  unfold Parse at h
  cases hr : parseValue src (fuelFor src) initCursor with
  | ok m p' =>
      rw [hr] at h
      dsimp only at h
      have h1 : some m = some n := congrArg Prod.fst h
      injection h1 with h2
      subst h2
      have hg := ((parseGood src (fuelFor src)).1 initCursor m p' hr).2.2.2.2
      refine EveryNode.imp ?_ hg
      intro m2 hm2
      obtain ⟨hm1, _⟩ := hm2
      unfold spanOrdered Node.startPair Node.endPair lexLe at hm1
      unfold claimedSpanInv
      omega
  | err no msg p2 =>
      rw [hr] at h
      dsimp only at h
      have h1 : some msg = none := congrArg Prod.snd h
      exact Option.noConfusion h1
  | out =>
      rw [hr] at h
      dsimp only at h
      have h1 : (none : Option Node) = some n := congrArg Prod.fst h
      exact Option.noConfusion h1

/-- C1 counterexample: on the partial input `{`, `Parse` returns (with an
error) a partial Object node whose start is (1,1) but whose end is the Go
zero value (0,0), violating `startLine ≤ endLine`. -/
theorem C1_counterexample :
    (Parse c1src).1 = some ⟨.object, [], [], 1, 1, 0, 0, c1src⟩ ∧
    ¬ claimedSpanInv ⟨.object, [], [], 1, 1, 0, 0, c1src⟩ := by
  refine ⟨rfl, ?_⟩
  decide

theorem C1_success_span_invariant_witness : EveryNode claimedSpanInv c2node :=
  C1_success_span_invariant c2src c2node (by rfl)

/-- C2: in every successfully parsed tree, each Object node's children are
String key nodes whose single child is the attached value, and the key
node's recorded end comes strictly before the value child's recorded end,
so the key's span does not enclose its child's span. -/
theorem C2_key_span_not_enclosing : ∀ (src : List Char) (n : Node),
    Parse src = (some n, none) →
    EveryNode (fun m => m.type = .object → ∀ k ∈ m.children,
      k.type = .string ∧ ∃ v, k.children = [v] ∧
        lexLt k.endPair v.endPair ∧ ¬ spanEncloses k v) n := by
  intro src n h
  unfold Parse at h
  cases hr : parseValue src (fuelFor src) initCursor with
  | ok m p' =>
      rw [hr] at h
      dsimp only at h
      have h1 : some m = some n := congrArg Prod.fst h
      injection h1 with h2
      subst h2
      have hg := ((parseGood src (fuelFor src)).1 initCursor m p' hr).2.2.2.2
      refine EveryNode.imp ?_ hg
      intro m2 hm2 hobj k hk
      obtain ⟨_, hkeys⟩ := hm2
      obtain ⟨kt, v, hkc, hlt⟩ := hkeys hobj k hk
      refine ⟨kt, v, hkc, hlt, ?_⟩
      intro henc
      exact not_lexLe_of_lt hlt henc.2
  | err no msg p2 =>
      rw [hr] at h
      dsimp only at h
      have h1 : some msg = none := congrArg Prod.snd h
      exact Option.noConfusion h1
  | out =>
      rw [hr] at h
      dsimp only at h
      have h1 : (none : Option Node) = some n := congrArg Prod.fst h
      exact Option.noConfusion h1

theorem C2_witness :
    EveryNode (fun m => m.type = .object → ∀ k ∈ m.children,
      k.type = .string ∧ ∃ v, k.children = [v] ∧
        lexLt k.endPair v.endPair ∧ ¬ spanEncloses k v) c2node :=
  C2_key_span_not_enclosing c2src c2node (by rfl)

/-- C3 (amended): whenever end of input is reached inside a string before
the closing quote and not immediately after a backslash, `parseString` fails
with message "unexpected end of input in string", the node's literal holds
all codepoints accumulated so far (per `scanString`), and the node's end
position is the cursor at the failure point, at end of input.  (As
originally stated — including input ending right after a backslash — the
claim is false; see the counterexample.) -/
theorem C3_eof_in_string : ∀ (src : List Char) (p : Cursor) (content : List Char),
    scanString (src.drop (p.pos + 1)) [] = .eofPlain content →
    ∃ p2 : Cursor,
      parseString src p =
        ⟨⟨.string, content, [], p.line, p.col, p2.line, p2.col, src⟩, p2, some msgEOFString⟩ ∧
      src.length ≤ p2.pos ∧ lexLe p.lc p2.lc :=
  fun _ _ _ h => parseString_eofPlain h

/-- C3 counterexample: on the input `"ab\` (end of input right after a
backslash), `parseString` fails with the distinct message "unexpected end of
input in string escape", its literal is empty rather than holding the
accumulated `ab`, and its end position is the zero value (0,0) rather than
the failure point. -/
theorem C3_counterexample :
    parseString c3cexSrc initCursor =
      ⟨⟨.string, [], [], 1, 1, 0, 0, c3cexSrc⟩, ⟨4, 1, 5⟩, some msgEOFStringEscape⟩ ∧
    msgEOFStringEscape ≠ msgEOFString ∧ (['a', 'b'] : List Char) ≠ [] := by
  refine ⟨rfl, ?_, ?_⟩ <;> decide

theorem C3_witness :
    ∃ p2 : Cursor,
      parseString c3wSrc initCursor =
        ⟨⟨.string, ['a', 'b'], [], 1, 1, p2.line, p2.col, c3wSrc⟩, p2, some msgEOFString⟩ ∧
      c3wSrc.length ≤ p2.pos ∧ lexLe initCursor.lc p2.lc :=
  C3_eof_in_string c3wSrc initCursor ['a', 'b'] (by rfl)

/-- C4 (amended): a backslash in a string is consumed but dropped: only the
immediately following codepoint is appended verbatim to the literal, with no
interpretation of standard escape meanings.  (As originally stated — the
literal containing the backslash followed by the escaped codepoint — the
claim is false; see the counterexample.) -/
theorem C4_escape_drops_backslash :
    (∀ (e : Char) (rest acc : List Char),
      scanString ('\\' :: e :: rest) acc = scanString rest (acc ++ [e])) ∧
    (∀ (src : List Char) (p : Cursor) (content : List Char),
      scanString (src.drop (p.pos + 1)) [] = .closed content →
      (parseString src p).errMsg = none ∧ (parseString src p).node.value = content) := by
  constructor
  · intro e rest acc
    rfl
  · intro src p content h
    exact parseString_closed h

/-- C4 counterexample: parsing the string `"\n"` succeeds with literal `n`,
not `\n`: the backslash is not passed into the literal. -/
theorem C4_counterexample :
    (parseString c4src initCursor).errMsg = none ∧
    (parseString c4src initCursor).node.value = ['n'] ∧
    (['n'] : List Char) ≠ ['\\', 'n'] := by
  refine ⟨rfl, rfl, ?_⟩
  decide

theorem C4_witness :
    (parseString c4src initCursor).errMsg = none ∧
    (parseString c4src initCursor).node.value = ['n'] :=
  C4_escape_drops_backslash.2 c4src initCursor ['n'] (by rfl)

/-- C5: for every cursor state, `parseNumber` never fails, stores as the
node's literal exactly the maximal prefix of the remaining input drawn from
`{'-', '+', '.', digit}` (possibly empty), and consumes exactly that
prefix. -/
theorem C5_number_maximal_prefix : ∀ (src : List Char) (p : Cursor),
    (parseNumber src p).errMsg = none ∧
    (parseNumber src p).node.value = (src.drop p.pos).takeWhile numberChar ∧
    (parseNumber src p).cur.pos =
      p.pos + ((src.drop p.pos).takeWhile numberChar).length :=
  fun src p =>
    ⟨(parseNumber_spec src p).1, (parseNumber_spec src p).2.1, (parseNumber_spec src p).2.2.1⟩

/-- C6: the four documented malformed inputs produce errors containing the
documented substrings. -/
theorem C6_error_messages :
    errContains "\x7b\"key\": \"value\"".data headObjSep = true ∧
    errContains "[1, 2, 3".data headArrSep = true ∧
    errContains "\x7b\"key\": \"value".data msgEOFString = true ∧
    errContains "\x7b\"key\": tru\x7d".data headBool = true := by
  refine ⟨?_, ?_, ?_, ?_⟩ <;> rfl

/-- C7: for every node and all non-negative context sizes, `DebugContext`
emits exactly the source lines with 0-based indices in the window
`[max 0 (startLine-1-linesBefore), min (lastLineIndex) (endLine-1+linesAfter)]`,
each formatted as `"{lineNumber}: {lineText}"` (followed by its caret
annotations), and every index in the window is inside the line sequence. -/
theorem C7_debug_window : ∀ (n : Node) (linesBefore linesAfter : Int),
    0 ≤ linesBefore → 0 ≤ linesAfter →
    (debugContextRows n linesBefore linesAfter =
      (specWindow n (splitLines n.source).length linesBefore linesAfter).flatMap
        (fun j => fmtLine j.toNat ((splitLines n.source).getD j.toNat []) ::
          caretRows n (splitLines n.source) j.toNat) ∧
    ∀ j ∈ specWindow n (splitLines n.source).length linesBefore linesAfter,
      0 ≤ j ∧ j.toNat < (splitLines n.source).length) := by
  intro n lb la hb ha
  constructor
  · unfold debugContextRows
    rw [debugRows_eq]
    unfold specWindow
    rw [debugStart_eq_max, debugStop_eq_min]
  · intro j hj
    unfold specWindow at hj
    rw [specWindow.mem_intRange] at hj
    omega

theorem C7_witness :
    (0 : Int) ≤ 1 ∧ (0 : Int) ≤ 1 ∧
    (debugContextRows c7node 1 1 =
      (specWindow c7node (splitLines c7node.source).length 1 1).flatMap
        (fun j => fmtLine j.toNat ((splitLines c7node.source).getD j.toNat []) ::
          caretRows c7node (splitLines c7node.source) j.toNat) ∧
    ∀ j ∈ specWindow c7node (splitLines c7node.source).length 1 1,
      0 ≤ j ∧ j.toNat < (splitLines c7node.source).length) :=
  ⟨by decide, by decide, C7_debug_window c7node 1 1 (by decide) (by decide)⟩

/-- C8: parsing is deterministic: two calls of `Parse` on the same input
yield equal results, and any two trees obtained from them are structurally
equal (same kinds, literals, spans and children counts). -/
theorem C8_deterministic : ∀ src : List Char,
    Parse src = Parse src ∧
    ∀ n m : Node, (Parse src).1 = some n → (Parse src).1 = some m →
      structEq n m = true := by
  intro src
  refine ⟨rfl, ?_⟩
  intro n m h1 h2
  rw [h1] at h2
  injection h2 with h3
  rw [h3]
  exact structEq_refl m

theorem C8_witness : structEq c8node c8node = true :=
  (C8_deterministic "true".data).2 c8node c8node (by rfl) (by rfl)

/-- C9: `Parse` terminates on every finite input: the fuel budget
`3 * length + 3` supplied by `Parse` is never exhausted, because every
continuing loop iteration and every level of recursion consumes input. -/
theorem C9_terminates : ∀ src : List Char,
    parseValue src (fuelFor src) initCursor ≠ .out := by
  intro src
  apply (parseFuel src (fuelFor src)).1
  show 3 * (src.length - 0) + 3 ≤ 3 * src.length + 3
  omega

/-- C10: every node returned without an error records as (endLine, endCol)
the cursor position immediately after the node's last consumed codepoint
(an exclusive end). -/
theorem C10_exclusive_end : ∀ (src : List Char) (fuel : Nat) (p : Cursor)
    (n : Node) (p' : Cursor),
    parseValue src fuel p = .ok n p' → n.endLine = p'.line ∧ n.endCol = p'.col := by
  intro src fuel p n p' h
  have he := ((parseGood src fuel).1 p n p' h).2.2.2.1
  exact ⟨congrArg Prod.fst he, congrArg Prod.snd he⟩

theorem C10_witness :
    (⟨.boolean, "true".data, [], 1, 1, 1, 5, "true".data⟩ : Node).endLine =
      (⟨4, 1, 5⟩ : Cursor).line ∧
    (⟨.boolean, "true".data, [], 1, 1, 1, 5, "true".data⟩ : Node).endCol =
      (⟨4, 1, 5⟩ : Cursor).col :=
  C10_exclusive_end "true".data (fuelFor "true".data) initCursor
    ⟨.boolean, "true".data, [], 1, 1, 1, 5, "true".data⟩ ⟨4, 1, 5⟩ (by rfl)


/-- Sanity check for the digit class: `parseNumber` consumes a non-ASCII
decimal digit (ARABIC-INDIC DIGIT THREE, U+0663) just as the program does. -/
theorem parseNumber_nd_sample :
    (parseNumber [Char.ofNat 0x663] initCursor).node.value = [Char.ofNat 0x663] ∧
    (parseNumber [Char.ofNat 0x663] initCursor).cur.pos = 1 :=
  ⟨rfl, rfl⟩

/-- Sanity check for the caret bound: on the single-line source `é`
(one rune, two UTF-8 bytes) a start column of 2 still fits the byte length,
so the start caret row is emitted, as the program does. -/
theorem caretRows_utf8_sample :
    caretRows ⟨.string, [], [], 1, 2, 0, 0, [Char.ofNat 0xE9]⟩
      (splitLines [Char.ofNat 0xE9]) 0 =
    [List.replicate 2 ' ' ++ '^' :: " start".data] :=
  rfl
